import Mathlib

/-!
# mqtohttp: rule engine and per-message handler

A shallow embedding of `rules/rules.go` (type `Rules`, `Rules.Apply`, `ParseRules`,
`parseAction`) and of the message handler of `main.go` (`handleMessage` and the
`OnPublishReceived` callback).

Conventions of the embedding:

* a Go `string` is a Lean `String`, read as its sequence of code points; the only
  slicing the code does is around the ASCII separator `->`, where byte offsets and
  code point offsets denote the same cut;
* a Go `error` is a value of `GoError`; `fmt.Errorf("p: %w", e)` is `GoError.wrap "p" e`;
* a Go run-time panic (index out of range) is the `none` of an `Option`;
* `*regexp.Regexp` is the record `Regexp` of the two methods the code calls, and
  `regexp.Compile` is a parameter `compile` of `ParseRules`; `regexp.Compile` further down
  is an executable model of it for a fragment of the RE2 syntax;
* the network, the URL parser and the MQTT client are the fields of `Env`, and what the
  handler does to them is the list of `Event`s it leaves.
-/

namespace Mqtohttp

/-! ## Errors -/

/-- The error codes of Go's `regexp/syntax` that the model of `regexp.Compile` reports.
`unsupported` is not a Go error: it marks a pattern outside the modelled fragment. -/
inductive ErrorCode
  | ErrInvalidCharRange
  | ErrInvalidNamedCapture
  | ErrInvalidRepeatOp
  | ErrMissingBracket
  | ErrMissingParen
  | ErrMissingRepeatArgument
  | ErrTrailingBackslash
  | ErrUnexpectedParen
  | unsupported
  deriving DecidableEq, Repr

/-- Go `error` values, as far as the program builds or inspects them. -/
inductive GoError
  /-- An error made of a message alone (`fmt.Errorf` without `%w`, `errors.New`). -/
  | msg (text : String)
  /-- The error `fmt.Errorf(pfx + ": %w", cause)`. -/
  | wrap (pfx : String) (cause : GoError)
  /-- The parse error returned by `regexp.Compile`. -/
  | regexp (code : ErrorCode)
  deriving DecidableEq, Repr

/-! ## Strings -/

namespace strings

/-- Scan for the first position at which `substr` starts, counting from `i`. -/
def indexAux (substr : List Char) : List Char → Nat → Int
  | [], i => if substr.isEmpty then (i : Int) else -1
  | c :: cs, i => if substr.isPrefixOf (c :: cs) then (i : Int) else indexAux substr cs (i + 1)

/-- Go `strings.Index(s, substr)`: the index of the first instance of `substr` in `s`,
or `-1` when there is none. -/
def Index (s substr : String) : Int := indexAux substr.toList s.toList 0

/-- The value `*strings.Replacer` built by `strings.NewReplacer(oldnew...)`, kept as its
argument list `old₀, new₀, old₁, new₁, …`. -/
structure Replacer where
  oldnew : List String
  deriving DecidableEq, Repr

/-- Go `strings.NewReplacer(oldnew...)`; it panics on an odd number of arguments. -/
def NewReplacer (oldnew : List String) : Option Replacer :=
  if oldnew.length % 2 = 1 then none else some ⟨oldnew⟩

end strings

/-- The Go slice expression `text[:ix]`. -/
def sliceTo (text : String) (ix : Int) : String := String.mk (text.toList.take ix.toNat)

/-- The Go slice expression `text[ix:]`. -/
def sliceFrom (text : String) (ix : Int) : String := String.mk (text.toList.drop ix.toNat)

/-! ## The `regexp` interface used by the rules -/

/-- A compiled regular expression `*regexp.Regexp`, as the two methods `rules.go` calls.
The two proof fields are the documented contract of the package: `SubexpNames()` has
`NumSubexp()+1` entries (entry 0 stands for the whole expression), and a non-nil result of
`FindStringSubmatch` has one entry for the whole match and one per capture group. -/
structure Regexp where
  /-- Go `NumSubexp()`: the number of parenthesised capture groups. -/
  NumSubexp : Nat
  /-- Go `SubexpNames()`. -/
  SubexpNames : List String
  /-- Go `FindStringSubmatch(s)`; `none` is the nil slice returned when nothing matches. -/
  FindStringSubmatch : String → Option (List String)
  names_length : SubexpNames.length = NumSubexp + 1
  submatch_length : ∀ s ms, FindStringSubmatch s = some ms → ms.length = NumSubexp + 1

/-! ## `rules.go` -/

/-- Go `type Action string`. -/
abbrev Action := String

/-- Go constant `ActionIgnore`. -/
def ActionIgnore : Action := "ignore"

/-- Go constant `ActionSend`. -/
def ActionSend : Action := "send"

/-- Go `type rule struct`; a nil `regex` is `none`. -/
structure rule where
  regex : Option Regexp
  groupNamesDecorated : List String
  action : Action

/-- Go `type Rules []rule`. -/
abbrev Rules := List rule

/-- The inner loop of `Apply`: `for ix, name := range r.groupNamesDecorated` appending
`name` and `ms[ix+1]` to `oldNew`. An index out of range is a panic (`none`). -/
def substLoop (ms : List String) : List String → Nat → List String → Option (List String)
  | [], _, oldNew => some oldNew
  | name :: names, ix, oldNew =>
    match ms[ix + 1]? with
    | none => none
    | some m => substLoop ms names (ix + 1) ((oldNew ++ [name]) ++ [m])

/-- The outer loop of `Apply` over the rules still to scan, `a` being the running default. -/
def applyLoop (topic : String) : Rules → Action → Option (Action × Option strings.Replacer)
  | [], a => some (a, none)
  | r :: rs, a =>
    match r.regex with
    | none => applyLoop topic rs r.action
    | some re =>
      match re.FindStringSubmatch topic with
      | none => applyLoop topic rs a
      | some ms =>
        match substLoop ms r.groupNamesDecorated 0 [] with
        | none => none
        | some oldNew =>
          match strings.NewReplacer oldNew with
          | none => none
          | some rep => some (r.action, some rep)

/-- Go `func (rs *Rules) Apply(topic string) (Action, *strings.Replacer)`. The result is
`none` when the call panics; a nil replacer is the inner `none`. -/
def Rules.Apply (rs : Rules) (topic : String) : Option (Action × Option strings.Replacer) :=
  applyLoop topic rs ActionSend

/-- Go `func parseAction(text string) (Action, error)`. -/
def parseAction (text : String) : Except GoError Action :=
  if text = ActionIgnore then .ok ActionIgnore
  else if text = ActionSend then .ok ActionSend
  else .error (.msg ("unknown action: " ++ text))

/-- The loop of `ParseRules` over the definitions still to read, `ret` being the rules
appended so far. -/
def parseLoop (compile : String → Except GoError Regexp) :
    List String → Rules → Except GoError Rules
  | [], ret => .ok ret
  | text :: texts, ret =>
    let ix := strings.Index text "->"
    if ix = -1 then
      match parseAction text with
      | .error err => .error (.wrap "parsing action" err)
      | .ok a => parseLoop compile texts (ret ++ [⟨none, [], a⟩])
    else
      match compile ("^" ++ sliceTo text ix ++ "$") with
      | .error err => .error (.wrap "failed to compile regex" err)
      | .ok re =>
        let names := re.SubexpNames
        let decorated := (names.drop 1).map (fun name => "\x7b" ++ name ++ "\x7d")
        match parseAction (sliceFrom text (ix + 2)) with
        | .error err => .error (.wrap "parsing action" err)
        | .ok a => parseLoop compile texts (ret ++ [⟨some re, decorated, a⟩])

/-- Go `func ParseRules(texts []string) (Rules, error)`, over the `regexp.Compile` given as
`compile`. An error result carries no rule set (the Go code returns `nil, err`). -/
def ParseRules (compile : String → Except GoError Regexp) (texts : List String) :
    Except GoError Rules :=
  parseLoop compile texts []

/-! ## A model of `regexp.Compile` and `FindStringSubmatch`

The fragment of the RE2 syntax modelled here: literals, `.`, `^`, `$`, bracket classes
with ranges and negation, the escapes of punctuation and `\d \D \w \W \s \S`, groups
`(…)`, `(?:…)`, `(?P<name>…)`, `(?<name>…)`, alternation, and the repetitions `* + ?`
with their non-greedy forms. Counted repetition, flags, the other escapes, classes inside
classes and repeated group names are answered with `ErrorCode.unsupported`. Matching is
leftmost-first, the rule of Go's `regexp` (the match a backtracking search finds first);
a round of a repetition has to consume input. The theorems on `ParseRules` and `Apply`
that speak of every rule set hold for any pattern compiler; this model serves the
statements about particular patterns. -/

namespace RegexpSyntax

/-- The parsed expression, Go `Regexp` of package regexp/syntax, by operator. -/
inductive Re
  | emptyMatch
  | literal (c : Char)
  | charClass (neg : Bool) (ranges : List (Char × Char))
  | anyCharNotNL
  | beginText
  | endText
  | capture (idx : Nat) (sub : Re)
  | star (greedy : Bool) (sub : Re)
  | plus (greedy : Bool) (sub : Re)
  | quest (greedy : Bool) (sub : Re)
  | concat (a b : Re)
  | alternate (a b : Re)
  deriving DecidableEq, Repr

/-- What the parser is in the middle of reading. -/
inductive Mode
  | normal
  | escape
  | paren
  | parenQ
  | parenQP
  | name (acc : List Char)
  | classStart
  | classBody (neg first : Bool) (items : List (Char × Char)) (pending : Option Char)
      (dash : Bool)
  deriving DecidableEq, Repr

/-- Whether the last thing read was a repetition operator (Go's `lastRepeat`). -/
inductive Rep
  | fresh
  | justRepeated
  | lazyMarked
  deriving DecidableEq, Repr

/-- One open group of the parse stack: the capture index (`none` for `(?:` and for the top
level), the finished branches of its alternation and the items of the current branch, both
newest first. -/
structure Frame where
  cap : Option Nat
  alts : List Re
  seq : List Re
  deriving DecidableEq, Repr

/-- The parser state: the innermost open group, the groups around it, and the capture
group names read so far (newest first, `""` for an unnamed group). -/
structure PState where
  mode : Mode
  cur : Frame
  stack : List Frame
  names : List String
  rep : Rep
  deriving DecidableEq, Repr

/-- The concatenation of the items of a branch, in order. -/
def concatOf : List Re → Re
  | [] => .emptyMatch
  | a :: rest => match rest with
    | [] => a
    | _ :: _ => .concat a (concatOf rest)

/-- The alternation of the branches of a group, in order. -/
def alternateOf : List Re → Re
  | [] => .emptyMatch
  | a :: rest => match rest with
    | [] => a
    | _ :: _ => .alternate a (alternateOf rest)

/-- The expression of a finished group. -/
def Frame.close (f : Frame) : Re :=
  alternateOf ((concatOf f.seq.reverse :: f.alts).reverse)

/-- Append an item to the current branch. -/
def pushItem (st : PState) (r : Re) : PState :=
  { st with mode := .normal, cur := { st.cur with seq := r :: st.cur.seq }, rep := .fresh }

/-- Open a group: `some name` a capture group (numbered in order of its opening
parenthesis), `none` a non-capturing one. -/
def openGroup (st : PState) (cap : Option String) : PState :=
  match cap with
  | none =>
    { st with mode := .normal, cur := ⟨none, [], []⟩, stack := st.cur :: st.stack,
              rep := .fresh }
  | some name =>
    { mode := .normal, cur := ⟨some (st.names.length + 1), [], []⟩,
      stack := st.cur :: st.stack, names := name :: st.names, rep := .fresh }

/-- The character `)`: the innermost group becomes an item of the group around it. -/
def closeGroup (st : PState) : Except ErrorCode PState :=
  match st.stack with
  | [] => .error .ErrUnexpectedParen
  | parent :: outer =>
    let body := st.cur.close
    let item := match st.cur.cap with
      | some i => Re.capture i body
      | none => body
    .ok { st with mode := .normal, cur := { parent with seq := item :: parent.seq },
                  stack := outer, rep := .fresh }

def makeLazy : Re → Re
  | .star _ s => .star false s
  | .plus _ s => .plus false s
  | .quest _ s => .quest false s
  | r => r

def repeatOf (c : Char) (r : Re) : Re :=
  if c = '*' then .star true r else if c = '+' then .plus true r else .quest true r

/-- One of `*`, `+`, `?`: a repetition of the last item, or, right after a repetition
operator, the `?` that makes it non-greedy; a second operator in a row is an error. -/
def repeatOp (st : PState) (c : Char) : Except ErrorCode PState :=
  match st.rep with
  | .lazyMarked => .error .ErrInvalidRepeatOp
  | .justRepeated =>
    if c = '?' then
      match st.cur.seq with
      | [] => .error .ErrMissingRepeatArgument
      | r :: rs => .ok { st with cur := { st.cur with seq := makeLazy r :: rs },
                                 rep := .lazyMarked }
    else .error .ErrInvalidRepeatOp
  | .fresh =>
    match st.cur.seq with
    | [] => .error .ErrMissingRepeatArgument
    | r :: rs => .ok { st with cur := { st.cur with seq := repeatOf c r :: rs },
                               rep := .justRepeated }

/-- A character read outside a class, an escape and a group header. -/
def stepNormal (st : PState) (c : Char) : Except ErrorCode PState :=
  if c = '\\' then .ok { st with mode := .escape }
  else if c = '(' then .ok { st with mode := .paren }
  else if c = ')' then closeGroup st
  else if c = '|' then
    .ok { st with cur := ⟨st.cur.cap, concatOf st.cur.seq.reverse :: st.cur.alts, []⟩,
                  rep := .fresh }
  else if c = '*' ∨ c = '+' ∨ c = '?' then repeatOp st c
  else if c = Char.ofNat 123 then .error .unsupported
  else if c = '[' then .ok { st with mode := .classStart }
  else if c = '.' then .ok (pushItem st .anyCharNotNL)
  else if c = '^' then .ok (pushItem st .beginText)
  else if c = '$' then .ok (pushItem st .endText)
  else .ok (pushItem st (.literal c))

/-- An ASCII letter or digit. -/
def isAlnum (c : Char) : Bool :=
  ('0'.toNat ≤ c.toNat ∧ c.toNat ≤ '9'.toNat) ∨
    ('A'.toNat ≤ c.toNat ∧ c.toNat ≤ 'Z'.toNat) ∨ ('a'.toNat ≤ c.toNat ∧ c.toNat ≤ 'z'.toNat)

/-- A character allowed in the name of a capture group. -/
def isWordChar (c : Char) : Bool := c = '_' ∨ isAlnum c

def perlDigit : List (Char × Char) := [('0', '9')]

def perlWord : List (Char × Char) := [('0', '9'), ('A', 'Z'), ('_', '_'), ('a', 'z')]

def perlSpace : List (Char × Char) :=
  [(Char.ofNat 9, Char.ofNat 10), (Char.ofNat 12, Char.ofNat 13), (' ', ' ')]

/-- The character after a backslash: an escaped ASCII character that is no letter or digit
stands for itself. -/
def stepEscape (st : PState) (c : Char) : Except ErrorCode PState :=
  if c.toNat < 128 ∧ isAlnum c = false then .ok (pushItem st (.literal c))
  else if c = 'd' then .ok (pushItem st (.charClass false perlDigit))
  else if c = 'D' then .ok (pushItem st (.charClass true perlDigit))
  else if c = 'w' then .ok (pushItem st (.charClass false perlWord))
  else if c = 'W' then .ok (pushItem st (.charClass true perlWord))
  else if c = 's' then .ok (pushItem st (.charClass false perlSpace))
  else if c = 'S' then .ok (pushItem st (.charClass true perlSpace))
  else .error .unsupported

/-- A character of a group name, `acc` being the name so far (newest first). -/
def stepName (st : PState) (acc : List Char) (c : Char) : Except ErrorCode PState :=
  if c = '>' then
    if acc = [] then .error .ErrInvalidNamedCapture
    else if String.mk acc.reverse ∈ st.names then .error .unsupported
    else .ok (openGroup st (some (String.mk acc.reverse)))
  else if isWordChar c then .ok { st with mode := .name (c :: acc) }
  else .error .ErrInvalidNamedCapture

def flushPending (items : List (Char × Char)) : Option Char → List (Char × Char)
  | none => items
  | some lo => (lo, lo) :: items

/-- A character inside a bracket class: `pending` is a character that may still open a
range, `dash` whether a `-` was read after it. -/
def stepClass (st : PState) (neg first : Bool) (items : List (Char × Char))
    (pending : Option Char) (dash : Bool) (c : Char) : Except ErrorCode PState :=
  if c = ']' ∧ first = false then
    let items1 := flushPending items pending
    let items2 := if dash then ('-', '-') :: items1 else items1
    .ok (pushItem st (.charClass neg items2.reverse))
  else if c = '\\' ∨ c = '[' then .error .unsupported
  else if dash then
    match pending with
    | none => .error .unsupported
    | some lo =>
      if c.toNat < lo.toNat then .error .ErrInvalidCharRange
      else .ok { st with mode := .classBody neg false ((lo, c) :: items) none false }
  else if c = '-' ∧ pending.isSome then
    .ok { st with mode := .classBody neg false items pending true }
  else
    .ok { st with mode := .classBody neg false (flushPending items pending) (some c) false }

/-- Read one character of the pattern. -/
def step (st : PState) (c : Char) : Except ErrorCode PState :=
  match st.mode with
  | .normal => stepNormal st c
  | .escape => stepEscape st c
  | .paren =>
    if c = '?' then .ok { st with mode := .parenQ } else stepNormal (openGroup st (some "")) c
  | .parenQ =>
    if c = ':' then .ok (openGroup st none)
    else if c = 'P' then .ok { st with mode := .parenQP }
    else if c = '<' then .ok { st with mode := .name [] }
    else .error .unsupported
  | .parenQP => if c = '<' then .ok { st with mode := .name [] } else .error .unsupported
  | .name acc => stepName st acc c
  | .classStart =>
    if c = '^' then .ok { st with mode := .classBody true true [] none false }
    else stepClass st false true [] none false c
  | .classBody neg first items pending dash => stepClass st neg first items pending dash c

def parseChars : PState → List Char → Except ErrorCode PState
  | st, [] => .ok st
  | st, c :: cs =>
    match step st c with
    | .error e => .error e
    | .ok st1 => parseChars st1 cs

/-- The end of the pattern: the expression and the capture group names in order. -/
def finish (st : PState) : Except ErrorCode (Re × List String) :=
  match st.mode with
  | .normal =>
    match st.stack with
    | [] => .ok (st.cur.close, st.names.reverse)
    | _ :: _ => .error .ErrMissingParen
  | .escape => .error .ErrTrailingBackslash
  | .paren => .error .ErrMissingParen
  | .name (_ :: _) => .error .ErrInvalidNamedCapture
  | .classStart => .error .ErrMissingBracket
  | .classBody _ _ _ _ _ => .error .ErrMissingBracket
  | _ => .error .unsupported

/-- Go `Parse(s, Perl)` of package regexp/syntax on the modelled fragment. -/
def Parse (s : String) : Except ErrorCode (Re × List String) :=
  match parseChars ⟨.normal, ⟨none, [], []⟩, [], [], .fresh⟩ s.toList with
  | .error e => .error e
  | .ok st => finish st

/-! ### Matching -/

/-- A point of a match in progress: the offset reached, the input left, and the text
captured so far by each group (entry 0 is the whole match). -/
structure MState where
  pos : Nat
  rest : List Char
  caps : Nat → Option (List Char)

def inRanges (ranges : List (Char × Char)) (c : Char) : Bool :=
  ranges.any (fun r => r.1.toNat ≤ c.toNat ∧ c.toNat ≤ r.2.toNat)

/-- Consume one character satisfying `p`. -/
def stepChar (p : Char → Bool) (st : MState) : List MState :=
  match st.rest with
  | [] => []
  | d :: tl => if p d then [⟨st.pos + 1, tl, st.caps⟩] else []

/-- The ways to repeat `f` from `st`, in order of preference; every repetition has to
consume input, so `n` repetitions are enough when `n` characters are left. -/
def starIter (greedy : Bool) (f : MState → List MState) : Nat → MState → List MState
  | 0, st => [st]
  | n + 1, st =>
    let more := ((f st).filter (fun st1 => st.pos < st1.pos)).flatMap (starIter greedy f n)
    if greedy then more ++ [st] else st :: more

/-- Every way `re` matches at `st`, in the order a backtracking search tries them. -/
def run : Re → MState → List MState
  | .emptyMatch, st => [st]
  | .literal c, st => stepChar (fun d => d = c) st
  | .charClass neg ranges, st => stepChar (fun d => inRanges ranges d != neg) st
  | .anyCharNotNL, st => stepChar (fun d => d ≠ Char.ofNat 10) st
  | .beginText, st => if st.pos = 0 then [st] else []
  | .endText, st => if st.rest.isEmpty then [st] else []
  | .capture idx sub, st =>
    (run sub st).map (fun st1 =>
      { st1 with caps := fun i =>
          if i = idx then some (st.rest.take (st1.pos - st.pos)) else st1.caps i })
  | .star greedy sub, st => starIter greedy (fun s => run sub s) st.rest.length st
  | .plus greedy sub, st =>
    (run sub st).flatMap (fun st1 => starIter greedy (fun s => run sub s) st1.rest.length st1)
  | .quest greedy sub, st => if greedy then run sub st ++ [st] else st :: run sub st
  | .concat a b, st => (run a st).flatMap (fun s => run b s)
  | .alternate a b, st => run a st ++ run b st

/-- The preferred match of `re` starting exactly at offset `pos`; group 0 is the whole
match. -/
def matchAt (re : Re) (pos : Nat) (rest : List Char) : Option MState :=
  (run (.capture 0 re) ⟨pos, rest, fun _ => none⟩).head?

/-- The leftmost match: try every start offset in turn. -/
def search (re : Re) : Nat → List Char → Option MState
  | pos, [] => matchAt re pos []
  | pos, c :: tl =>
    match matchAt re pos (c :: tl) with
    | some st => some st
    | none => search re (pos + 1) tl

/-- The slice of submatches of a match, one entry for the whole match and one for each of
the `ncap` groups; a group that took no part gives the empty string. -/
def submatches (ncap : Nat) (st : MState) : List String :=
  (List.range (ncap + 1)).map (fun i => String.mk ((st.caps i).getD []))

/-- Whether `re` matches the whole of `s`, from its first character to its last. -/
def fullMatch (re : Re) (s : String) : Bool :=
  (run re ⟨0, s.toList, fun _ => none⟩).any (fun st => st.rest.isEmpty)

end RegexpSyntax

namespace regexp

open RegexpSyntax

/-- The compiled form of a parsed expression with its capture group names. -/
def ofParsed (re : Re) (names : List String) : Regexp where
  NumSubexp := names.length
  SubexpNames := "" :: names
  FindStringSubmatch := fun s => (search re 0 s.toList).map (submatches names.length)
  names_length := rfl
  submatch_length := fun _ ms h => by
    obtain ⟨st, -, rfl⟩ := Option.map_eq_some'.mp h
    simp [submatches]

/-- Go `regexp.Compile(expr)` on the modelled fragment. -/
def Compile (expr : String) : Except GoError Regexp :=
  match Parse expr with
  | .error code => .error (.regexp code)
  | .ok (re, names) => .ok (ofParsed re names)

end regexp

/-! ## Reading aids for the rule engine -/

/-- The error of a failed result, `none` for a success. -/
def failure {α : Type} : Except GoError α → Option GoError
  | .error e => some e
  | .ok _ => none

/-- The action of the last default rule of the set, or `Send` when it has none. -/
def fallbackAction (rs : Rules) : Action :=
  match (rs.filter (fun r => r.regex.isNone)).getLast? with
  | some r => r.action
  | none => ActionSend

/-- The running default after scanning `rs` from the default `a`. -/
def runDefault (a : Action) (rs : Rules) : Action :=
  rs.foldl (fun acc r => if r.regex.isNone then r.action else acc) a

/-- Each placeholder followed by the text of the capture paired with it. -/
def pairUp : List String → List String → List String
  | name :: names, c :: cs => name :: c :: pairUp names cs
  | _, _ => []

/-- The body of the loop of `ParseRules` for one definition: the rule it appends. -/
def parseOne (compile : String → Except GoError Regexp) (text : String) : Except GoError rule :=
  let ix := strings.Index text "->"
  if ix = -1 then
    match parseAction text with
    | .error err => .error (.wrap "parsing action" err)
    | .ok a => .ok ⟨none, [], a⟩
  else
    match compile ("^" ++ sliceTo text ix ++ "$") with
    | .error err => .error (.wrap "failed to compile regex" err)
    | .ok re =>
      match parseAction (sliceFrom text (ix + 2)) with
      | .error err => .error (.wrap "parsing action" err)
      | .ok a =>
        .ok ⟨some re, (re.SubexpNames.drop 1).map (fun name => "\x7b" ++ name ++ "\x7d"), a⟩

/-! ## `main.go`: the per-message handler -/

/-- Go `paho.Publish`, the fields the handler reads. -/
structure Publish where
  Topic : String
  Payload : List Nat
  deriving DecidableEq, Repr

/-- Go `http.Request`, the parts the handler sets. -/
structure Request where
  Method : String
  URL : String
  Header : List (String × String)
  Body : List Nat
  deriving DecidableEq, Repr

/-- The collaborators of the handler. -/
structure Env where
  /-- Go `url.Parse`, the one step of `http.NewRequestWithContext` that can fail here. -/
  parseURL : String → Except GoError String
  /-- Go `http.DefaultClient.Do(req)` under a context whose recorded cause is the first
  argument: the status code of the response, or the transport error. -/
  Do : Option GoError → Request → Except GoError Nat
  /-- Go `pr.Client.Ack(pr.Packet)`: the error it returns, if any. -/
  Ack : Publish → Option GoError

/-- What the handler does to the outside world. -/
inductive Event
  | httpDo (req : Request)
  | ack (p : Publish)
  | cancel (cause : GoError)
  | log (line : String)
  deriving DecidableEq, Repr

def Event.isAck : Event → Bool
  | .ack _ => true
  | _ => false

def Event.isCancel : Event → Bool
  | .cancel _ => true
  | _ => false

def Event.isHttpDo : Event → Bool
  | .httpDo _ => true
  | _ => false

/-- Go `err.Error()`. -/
def GoError.Error : GoError → String
  | .msg text => text
  | .wrap pfx cause => pfx ++ ": " ++ cause.Error
  | .regexp _ => "error parsing regexp"

/-- Go `http.NewRequestWithContext(ctx, method, url, body)` for a valid method and a
non-nil context. -/
def NewRequestWithContext (env : Env) (method url : String) (body : List Nat) :
    Except GoError Request :=
  match env.parseURL url with
  | .error err => .error err
  | .ok u => .ok ⟨method, u, [], body⟩

/-- Go `func handleMessage(ctx, p, endpoint) (string, error)`: the events and the result.
`ctx` is the cause recorded in the context, `none` while it is not cancelled. -/
def handleMessage (env : Env) (ctx : Option GoError) (p : Publish) (endpoint : String) :
    List Event × Except GoError String :=
  match NewRequestWithContext env "POST" endpoint p.Payload with
  | .error err => ([], .error (.wrap "creating request" err))
  | .ok req0 =>
    let req := { req0 with Header := [("Content-Type", "application/json")] }
    match env.Do ctx req with
    | .error err => ([.httpDo req], .error err)
    | .ok code =>
      ([.httpDo req],
        .ok ("sent to " ++ req.URL ++ " (response code " ++ toString code ++ ")"))

/-- Go `cancel(cause)` of `context.WithCancelCause`: the first recorded cause stays. -/
def cancel (ctx : Option GoError) (cause : GoError) : Option GoError :=
  match ctx with
  | none => some cause
  | some first => some first

/-- The state the handler leaves and what it returns. -/
structure Outcome where
  /-- The cause recorded in the pipeline context afterwards. -/
  ctx : Option GoError
  events : List Event
  handled : Bool
  err : Option GoError
  deriving DecidableEq, Repr

/-- The callback registered as `OnPublishReceived` in `main.go`. -/
def OnPublishReceived (env : Env) (endpoint : String) (ctx : Option GoError) (pr : Publish) :
    Outcome :=
  match handleMessage env ctx pr endpoint with
  | (evs, .ok res) =>
    let evs1 := evs ++ [.log ("handled message on " ++ pr.Topic ++ ": " ++ res), .ack pr]
    match env.Ack pr with
    | some err =>
      ⟨ctx, evs1 ++ [.log ("error acking message on " ++ pr.Topic ++ ": " ++ err.Error)],
        true, none⟩
    | none => ⟨ctx, evs1, true, none⟩
  | (evs, .error err) =>
    let cause := GoError.wrap ("failed to handle message on " ++ pr.Topic) err
    ⟨cancel ctx cause, evs ++ [.cancel cause], false, some err⟩

/-! ## Sample rules -/

/-- The compiled form of the pattern `^(?P<id>[0-9]+)$`. -/
def idRegexp : Regexp :=
  regexp.ofParsed
    (.concat .beginText
      (.concat (.capture 1 (.plus true (.charClass false [('0', '9')]))) .endText))
    ["id"]

/-- The pattern rule `(?P<id>[0-9]+)->send`. -/
def idRule : rule := ⟨some idRegexp, ["\x7bid\x7d"], ActionSend⟩

/-- The default rule `ignore`. -/
def ignoreRule : rule := ⟨none, [], ActionIgnore⟩

/-- The compiled form of the pattern `^(a)(?P<x>b)$`. -/
def abRegexp : Regexp :=
  regexp.ofParsed
    (.concat .beginText
      (.concat (.capture 1 (.literal 'a')) (.concat (.capture 2 (.literal 'b')) .endText)))
    ["", "x"]

/-- The pattern rule `(a)(?P<x>b)->send`. -/
def abRule : rule := ⟨some abRegexp, ["\x7b\x7d", "\x7bx\x7d"], ActionSend⟩

/-- The rule set of a successful result, the empty one for a failure. -/
def rulesOf : Except GoError Rules → Rules
  | .ok rs => rs
  | .error _ => []

/-- Whether `pattern`, compiled on its own, matches the whole of `topic`. -/
def wholeMatch (pattern topic : String) : Option Bool :=
  match RegexpSyntax.Parse pattern with
  | .ok (re, _) => some (RegexpSyntax.fullMatch re topic)
  | .error _ => none

/-- A sink that answers every non-empty payload with status 500 and cannot be reached for
an empty one; every endpoint parses, and `Ack` succeeds. -/
def sampleEnv : Env where
  parseURL := fun u => .ok u
  Do := fun _ req => if req.Body = [] then .error (.msg "connection refused") else .ok 500
  Ack := fun _ => none

/-- An environment in which no endpoint parses as a URL. -/
def badUrlEnv : Env where
  parseURL := fun _ => .error (.msg "missing protocol scheme")
  Do := fun _ _ => .ok 200
  Ack := fun _ => none

/-! ## Lemmas on `Apply` -/

theorem substLoop_eq (ms : List String) :
    ∀ (names : List String) (ix : Nat) (acc : List String),
      names.length + ix + 1 ≤ ms.length →
      substLoop ms names ix acc = some (acc ++ pairUp names (ms.drop (ix + 1))) := by
  intro names
  induction names with
  | nil => intro ix acc _; simp [substLoop, pairUp]
  | cons name names ih =>
    intro ix acc h
    simp only [List.length_cons] at h
    have hlt : ix + 1 < ms.length := by omega
    have hd : ms.drop (ix + 1) = ms[ix + 1] :: ms.drop (ix + 1 + 1) :=
      List.drop_eq_getElem_cons hlt
    rw [substLoop, List.getElem?_eq_getElem hlt]
    simp only
    rw [ih (ix + 1) _ (by omega), hd]
    simp [pairUp]

theorem pairUp_length :
    ∀ (names cs : List String), names.length ≤ cs.length →
      (pairUp names cs).length = 2 * names.length := by
  intro names
  induction names with
  | nil => intro cs _; simp [pairUp]
  | cons name names ih =>
    intro cs h
    cases cs with
    | nil => simp at h
    | cons c cs =>
      simp only [List.length_cons] at h
      simp only [pairUp, List.length_cons, ih cs (by omega)]
      omega

theorem NewReplacer_even (l : List String) (h : l.length % 2 = 0) :
    strings.NewReplacer l = some ⟨l⟩ := by
  simp [strings.NewReplacer, h]

/-- A rule whose matcher matches decides the result, whatever default is running and
whatever follows. -/
theorem applyLoop_match (T : String) (r : rule) (post : Rules) (a : Action) (re : Regexp)
    (ms : List String) (hr : r.regex = some re) (hm : re.FindStringSubmatch T = some ms)
    (hlen : r.groupNamesDecorated.length < ms.length) :
    applyLoop T (r :: post) a =
      some (r.action, some ⟨pairUp r.groupNamesDecorated (ms.drop 1)⟩) := by
  have hsub := substLoop_eq ms r.groupNamesDecorated 0 [] (by omega)
  have hev : (pairUp r.groupNamesDecorated (ms.drop 1)).length % 2 = 0 := by
    rw [pairUp_length _ _ (by simp; omega)]; omega
  simp only [List.nil_append, Nat.zero_add] at hsub
  simp only [applyLoop, hr, hm, hsub, NewReplacer_even _ hev]

theorem applyLoop_match_indep (T : String) (r : rule) (post post1 : Rules) (a a1 : Action)
    (re : Regexp) (ms : List String) (hr : r.regex = some re)
    (hm : re.FindStringSubmatch T = some ms) :
    applyLoop T (r :: post) a = applyLoop T (r :: post1) a1 := by
  simp only [applyLoop, hr, hm]

/-- Rules that do not match are passed over; the defaults among them set the running
default. -/
theorem applyLoop_skip (T : String) (rest : Rules) :
    ∀ (pre : Rules) (a : Action),
      (∀ q ∈ pre, ∀ qe, q.regex = some qe → qe.FindStringSubmatch T = none) →
      applyLoop T (pre ++ rest) a = applyLoop T rest (runDefault a pre) := by
  intro pre
  induction pre with
  | nil => intro a _; simp [runDefault]
  | cons q pre ih =>
    intro a h
    have hpre : ∀ q1 ∈ pre, ∀ qe, q1.regex = some qe → qe.FindStringSubmatch T = none :=
      fun q1 hq1 => h q1 (List.mem_cons_of_mem _ hq1)
    cases hq : q.regex with
    | none =>
      rw [List.cons_append, applyLoop]
      simp only [hq]
      rw [ih _ hpre]
      simp [runDefault, hq]
    | some qe =>
      have hno := h q (List.mem_cons_self _ _) qe hq
      rw [List.cons_append, applyLoop]
      simp only [hq, hno]
      rw [ih _ hpre]
      simp [runDefault, hq]

theorem runDefault_eq (rs : Rules) :
    ∀ a, runDefault a rs =
      match (rs.filter (fun r => r.regex.isNone)).getLast? with
      | some r => r.action
      | none => a := by
  induction rs with
  | nil => intro a; simp [runDefault]
  | cons q rs ih =>
    intro a
    have hstep : runDefault a (q :: rs) =
        runDefault (if q.regex.isNone then q.action else a) rs := by
      simp [runDefault]
    rw [hstep, ih]
    cases hq : q.regex.isNone with
    | false => simp [List.filter_cons, hq]
    | true =>
      simp only [List.filter_cons, hq, if_true]
      cases hl : (rs.filter (fun r => r.regex.isNone)).getLast? with
      | none =>
        have : rs.filter (fun r => r.regex.isNone) = [] := List.getLast?_eq_none_iff.mp hl
        simp [this]
      | some r =>
        have hne : rs.filter (fun r => r.regex.isNone) ≠ [] := by
          intro h0; rw [h0] at hl; simp at hl
        obtain ⟨x, xs, hx⟩ := List.exists_cons_of_ne_nil hne
        rw [hx] at hl ⊢
        rw [List.getLast?_cons_cons, hl]

theorem runDefault_send (rs : Rules) : runDefault ActionSend rs = fallbackAction rs := by
  rw [runDefault_eq]; rfl

/-! ## The rule engine: first match and fallback -/

/-- C1: `Apply` is first-match-wins in declaration order. In a rule set `pre ++ [r] ++ post`
where `r` is a pattern rule matching the topic and no pattern rule of `pre` matches it, the
result is the one `r` alone gives, whatever `post` holds and whatever defaults `pre` holds;
when `r` has a submatch for each of its placeholders, that result is `r`'s action with
each placeholder paired with its capture. -/
theorem Apply_first_match_wins (pre post : Rules) (r : rule) (re : Regexp) (T : String)
    (ms : List String) (hr : r.regex = some re) (hm : re.FindStringSubmatch T = some ms)
    (hpre : ∀ q ∈ pre, ∀ qe, q.regex = some qe → qe.FindStringSubmatch T = none) :
    Rules.Apply (pre ++ [r] ++ post) T = Rules.Apply [r] T ∧
    (r.groupNamesDecorated.length < ms.length →
      Rules.Apply (pre ++ [r] ++ post) T =
        some (r.action, some ⟨pairUp r.groupNamesDecorated (ms.drop 1)⟩)) := by
  have hskip : Rules.Apply (pre ++ [r] ++ post) T =
      applyLoop T (r :: post) (runDefault ActionSend pre) := by
    unfold Rules.Apply
    rw [List.append_assoc, applyLoop_skip T _ pre ActionSend hpre]
    rfl
  refine ⟨?_, fun hlen => ?_⟩
  · rw [hskip]
    exact applyLoop_match_indep T r post [] _ ActionSend re ms hr hm
  · rw [hskip]
    exact applyLoop_match T r post _ re ms hr hm hlen

/-- C1 at a concrete rule set: a default, the matching rule `(?P<id>[0-9]+)->send`, and a
default after it. -/
theorem Apply_first_match_wins_witness :
    idRule.regex = some idRegexp ∧
    idRegexp.FindStringSubmatch "42" = some ["42", "42"] ∧
    Rules.Apply ([ignoreRule] ++ [idRule] ++ [ignoreRule]) "42" =
      some (ActionSend, some ⟨["\x7bid\x7d", "42"]⟩) :=
  ⟨rfl, by decide,
    (Apply_first_match_wins [ignoreRule] [ignoreRule] idRule idRegexp "42" ["42", "42"] rfl
      (by decide) (by
        intro q hq qe h
        rw [List.mem_singleton] at hq
        subst hq
        exact absurd h (by simp [ignoreRule]))).2 (by decide)⟩

theorem applyLoop_unmatched (T : String) (rs : Rules) (a : Action)
    (h : ∀ r ∈ rs, ∀ re, r.regex = some re → re.FindStringSubmatch T = none) :
    applyLoop T rs a = some (runDefault a rs, none) := by
  have := applyLoop_skip T [] rs a h
  rw [List.append_nil] at this
  rw [this, applyLoop]

/-- C2: the fallback of `Apply`. On a topic no pattern rule matches, the result is the action
of the last default rule, or `Send` when there is none, with a nil replacer; the rule set
compiled from the one definition `ignore` gives `Ignore` for every topic; a rule set without
a default rule gives `Send` on every unmatched topic. -/
theorem Apply_fallback :
    (∀ (rs : Rules) (T : String),
      (∀ r ∈ rs, ∀ re, r.regex = some re → re.FindStringSubmatch T = none) →
      Rules.Apply rs T = some (fallbackAction rs, none)) ∧
    (∀ (compile : String → Except GoError Regexp) (T : String),
      ∃ rs, ParseRules compile ["ignore"] = .ok rs ∧
        Rules.Apply rs T = some (ActionIgnore, none)) ∧
    (∀ (rs : Rules) (T : String),
      (∀ r ∈ rs, ∀ re, r.regex = some re → re.FindStringSubmatch T = none) →
      (∀ r ∈ rs, r.regex ≠ none) →
      Rules.Apply rs T = some (ActionSend, none)) := by
  refine ⟨fun rs T h => ?_, fun compile T => ⟨[⟨none, [], ActionIgnore⟩], ?_, ?_⟩,
    fun rs T h hnd => ?_⟩
  · unfold Rules.Apply
    rw [applyLoop_unmatched T rs _ h, runDefault_send]
  · have hix : strings.Index "ignore" "->" = -1 := by decide
    have hact : parseAction "ignore" = .ok ActionIgnore := by simp [parseAction, ActionIgnore]
    simp only [ParseRules, parseLoop, hix, hact, if_true, List.nil_append]
  · rfl
  · unfold Rules.Apply
    rw [applyLoop_unmatched T rs _ h, runDefault_send]
    have hnil : rs.filter (fun r => r.regex.isNone) = [] := by
      rw [List.filter_eq_nil_iff]
      intro r hr
      have := hnd r hr
      cases hq : r.regex with
      | none => exact absurd hq this
      | some _ => simp
    simp [fallbackAction, hnil]

/-- C2 at concrete rule sets: after two defaults the last one decides, and without a
default the result is `Send`. -/
theorem Apply_fallback_witness :
    Rules.Apply [⟨none, [], ActionSend⟩, idRule, ignoreRule] "abc" =
      some (ActionIgnore, none) ∧
    Rules.Apply [idRule] "abc" = some (ActionSend, none) :=
  have hno : ∀ rs : Rules, (∀ r ∈ rs, r = idRule ∨ r.regex = none) →
      ∀ r ∈ rs, ∀ re, r.regex = some re → re.FindStringSubmatch "abc" = none := by
    intro rs hrs r hr re hre
    rcases hrs r hr with h | h
    · subst h
      have : re = idRegexp := by
        simp only [idRule, Option.some.injEq] at hre
        exact hre.symm
      subst this
      decide
    · rw [h] at hre
      exact absurd hre (by simp)
  ⟨Apply_fallback.1 _ "abc" (hno _ (by simp [ignoreRule])),
    Apply_fallback.2.2 _ "abc" (hno _ (by simp)) (by simp [idRule])⟩

/-! ## Lemmas on `strings.Index` and on `ParseRules` -/

theorem indexAux_none (sep : List Char) (hne : sep ≠ []) :
    ∀ (s : List Char) (i : Nat), ¬ sep <:+: s → strings.indexAux sep s i = -1 := by
  intro s
  induction s with
  | nil =>
    intro i _
    cases sep with
    | nil => exact absurd rfl hne
    | cons c cs => simp [strings.indexAux]
  | cons c cs ih =>
    intro i h
    have hpre : sep.isPrefixOf (c :: cs) = false := by
      cases hp : sep.isPrefixOf (c :: cs) with
      | false => rfl
      | true => exact absurd (List.isPrefixOf_iff_prefix.mp hp).isInfix h
    have htl : ¬ sep <:+: cs := fun hi => h (hi.trans (List.suffix_cons c cs).isInfix)
    rw [strings.indexAux]
    simp only [hpre, Bool.false_eq_true, if_false]
    exact ih (i + 1) htl

theorem indexAux_first (act : List Char) :
    ∀ (pat : List Char) (i : Nat), ¬ ['-', '>'] <:+: pat →
      strings.indexAux ['-', '>'] (pat ++ '-' :: '>' :: act) i = ((i + pat.length : Nat) : Int) := by
  intro pat
  induction pat with
  | nil =>
    intro i _
    simp [strings.indexAux, List.isPrefixOf]
  | cons c cs ih =>
    intro i h
    have htl : ¬ ['-', '>'] <:+: cs := fun hi => h (hi.trans (List.suffix_cons c cs).isInfix)
    have hpre : List.isPrefixOf ['-', '>'] (c :: (cs ++ '-' :: '>' :: act)) = false := by
      cases hp : List.isPrefixOf ['-', '>'] (c :: (cs ++ '-' :: '>' :: act)) with
      | false => rfl
      | true =>
        exfalso
        cases cs with
        | nil => simp [List.isPrefixOf] at hp
        | cons d ds =>
          simp [List.isPrefixOf] at hp
          obtain ⟨h1, h2⟩ := hp
          subst h1 h2
          exact h (List.prefix_append ['-', '>'] ds).isInfix
    rw [List.cons_append, strings.indexAux]
    simp only [hpre, Bool.false_eq_true, if_false]
    rw [ih (i + 1) htl]
    simp only [List.length_cons]
    congr 1
    omega

theorem Index_no_arrow (text : String) (h : ¬ "->".toList <:+: text.toList) :
    strings.Index text "->" = -1 :=
  indexAux_none _ (by decide) _ 0 h

theorem Index_arrow (pat act : String) (h : ¬ "->".toList <:+: pat.toList) :
    strings.Index (pat ++ "->" ++ act) "->" = (pat.length : Int) := by
  have := indexAux_first act.toList pat.toList 0 h
  simp only [Nat.zero_add] at this
  unfold strings.Index
  have hl : (pat ++ "->" ++ act).toList = pat.toList ++ '-' :: '>' :: act.toList := by
    simp [String.toList]
  rw [hl]
  exact this

theorem parseLoop_cons (compile : String → Except GoError Regexp) (text : String)
    (texts : List String) (ret : Rules) :
    parseLoop compile (text :: texts) ret =
      match parseOne compile text with
      | .error e => .error e
      | .ok r => parseLoop compile texts (ret ++ [r]) := by
  rw [parseLoop]
  unfold parseOne
  simp only
  split
  · cases parseAction text <;> rfl
  · cases compile ("^" ++ sliceTo text (strings.Index text "->") ++ "$") with
    | error e => rfl
    | ok re => cases parseAction (sliceFrom text (strings.Index text "->" + 2)) <;> rfl

/-- A successful `ParseRules` appends, for each definition in order, the rule its loop
body builds. -/
theorem parseLoop_ok (compile : String → Except GoError Regexp) :
    ∀ (texts : List String) (ret rs : Rules), parseLoop compile texts ret = .ok rs →
      ∃ new, rs = ret ++ new ∧
        List.Forall₂ (fun text r => parseOne compile text = .ok r) texts new := by
  intro texts
  induction texts with
  | nil =>
    intro ret rs h
    rw [parseLoop] at h
    injection h with h
    exact ⟨[], by simp [h], List.Forall₂.nil⟩
  | cons text texts ih =>
    intro ret rs h
    rw [parseLoop_cons] at h
    cases hone : parseOne compile text with
    | error e => rw [hone] at h; cases h
    | ok r =>
      rw [hone] at h
      obtain ⟨new, hrs, hall⟩ := ih _ _ h
      exact ⟨r :: new, by rw [hrs, List.append_assoc]; rfl, List.Forall₂.cons hone hall⟩

theorem ParseRules_ok (compile : String → Except GoError Regexp) (texts : List String)
    (rs : Rules) (h : ParseRules compile texts = .ok rs) :
    List.Forall₂ (fun text r => parseOne compile text = .ok r) texts rs := by
  obtain ⟨new, hrs, hall⟩ := parseLoop_ok compile texts [] rs h
  rw [List.nil_append] at hrs
  rw [hrs]
  exact hall

theorem ParseRules_mem (compile : String → Except GoError Regexp) (texts : List String)
    (rs : Rules) (h : ParseRules compile texts = .ok rs) (r : rule) (hr : r ∈ rs) :
    ∃ text ∈ texts, parseOne compile text = .ok r := by
  have hall := ParseRules_ok compile texts rs h
  clear h
  induction hall with
  | nil => simp at hr
  | cons hone _ ih =>
    rcases List.mem_cons.mp hr with h1 | h1
    · subst h1
      exact ⟨_, List.mem_cons_self _ _, hone⟩
    · obtain ⟨t, ht, hto⟩ := ih h1
      exact ⟨t, List.mem_cons_of_mem _ ht, hto⟩

theorem ParseRules_fails_of_bad (compile : String → Except GoError Regexp)
    (texts : List String) (text : String) (hmem : text ∈ texts)
    (hbad : ∀ r, parseOne compile text ≠ .ok r) :
    ∃ err, ParseRules compile texts = .error err := by
  cases h : ParseRules compile texts with
  | error err => exact ⟨err, rfl⟩
  | ok rs =>
    exfalso
    have hall := ParseRules_ok compile texts rs h
    clear h
    induction hall with
    | nil => simp at hmem
    | cons hone _ ih =>
      rcases List.mem_cons.mp hmem with h1 | h1
      · subst h1
        exact hbad _ hone
      · exact ih h1

/-- The placeholders of a rule built by the loop body are the names of the capture groups
of its matcher, each between braces. -/
theorem parseOne_names (compile : String → Except GoError Regexp) (text : String) (r : rule)
    (h : parseOne compile text = .ok r) (re : Regexp) (hre : r.regex = some re) :
    r.groupNamesDecorated =
      (re.SubexpNames.drop 1).map (fun name => "\x7b" ++ name ++ "\x7d") := by
  unfold parseOne at h
  simp only at h
  split at h
  · cases hp : parseAction text with
    | error e => rw [hp] at h; cases h
    | ok a =>
      rw [hp] at h
      injection h with h
      subst h
      cases hre
  · cases hc : compile ("^" ++ sliceTo text (strings.Index text "->") ++ "$") with
    | error e => rw [hc] at h; cases h
    | ok re1 =>
      rw [hc] at h
      cases hp : parseAction (sliceFrom text (strings.Index text "->" + 2)) with
      | error e => rw [hp] at h; cases h
      | ok a =>
        rw [hp] at h
        injection h with h
        subst h
        injection hre with hre
        subst hre
        rfl

theorem parseAction_unknown (t : String) (h1 : t ≠ "ignore") (h2 : t ≠ "send") :
    parseAction t = .error (.msg ("unknown action: " ++ t)) := by
  simp [parseAction, ActionIgnore, ActionSend, h1, h2]

theorem parseOne_no_arrow (compile : String → Except GoError Regexp) (text : String)
    (h : ¬ "->".toList <:+: text.toList) (h1 : text ≠ "ignore") (h2 : text ≠ "send") :
    parseOne compile text =
      .error (.wrap "parsing action" (.msg ("unknown action: " ++ text))) := by
  unfold parseOne
  simp only [Index_no_arrow text h, if_true, parseAction_unknown text h1 h2]

theorem sliceFrom_arrow (pat act : String) :
    sliceFrom (pat ++ "->" ++ act) ((pat.length : Int) + 2) = act := by
  have hl : (pat ++ "->" ++ act).toList = pat.toList ++ ('-' :: '>' :: act.toList) := by
    simp [String.toList]
  have hn : ((pat.length : Int) + 2).toNat = pat.toList.length + 2 := by
    have : pat.length = pat.toList.length := rfl
    omega
  unfold sliceFrom
  rw [hl, hn, ← List.drop_drop, List.drop_left]
  rfl

theorem sliceTo_arrow (pat act : String) :
    sliceTo (pat ++ "->" ++ act) (pat.length : Int) = pat := by
  have hl : (pat ++ "->" ++ act).toList = pat.toList ++ ('-' :: '>' :: act.toList) := by
    simp [String.toList]
  have hn : pat.length = pat.toList.length := rfl
  unfold sliceTo
  rw [hl, Int.toNat_ofNat, hn, List.take_left]
  rfl

theorem parseOne_arrow_bad (compile : String → Except GoError Regexp) (pat act : String)
    (h : ¬ "->".toList <:+: pat.toList) (h1 : act ≠ "ignore") (h2 : act ≠ "send") :
    ∀ r, parseOne compile (pat ++ "->" ++ act) ≠ .ok r := by
  intro r
  have hne : ((pat.length : Int) = -1) = False := by
    apply eq_false
    have : (0 : Int) ≤ (pat.length : Int) := Int.ofNat_nonneg _
    omega
  unfold parseOne
  simp only [Index_arrow pat act h, hne, if_false, sliceFrom_arrow,
    parseAction_unknown act h1 h2]
  cases compile ("^" ++ sliceTo (pat ++ "->" ++ act) (pat.length : Int) ++ "$") <;> simp

theorem ok_rulesOf (x : Except GoError Rules) (h : failure x = none) : x = .ok (rulesOf x) := by
  cases x with
  | error e => simp [failure] at h
  | ok rs => rfl

theorem applyLoop_total (T : String) :
    ∀ (rs : Rules) (a : Action),
      (∀ r ∈ rs, ∀ re, r.regex = some re → r.groupNamesDecorated.length = re.NumSubexp) →
      ∃ act rep, applyLoop T rs a = some (act, rep) := by
  intro rs
  induction rs with
  | nil => intro a _; exact ⟨a, none, rfl⟩
  | cons r rs ih =>
    intro a h
    have htl : ∀ q ∈ rs, ∀ re, q.regex = some re → q.groupNamesDecorated.length = re.NumSubexp :=
      fun q hq => h q (List.mem_cons_of_mem _ hq)
    cases hr : r.regex with
    | none =>
      rw [applyLoop]
      simp only [hr]
      exact ih _ htl
    | some re =>
      cases hm : re.FindStringSubmatch T with
      | none =>
        rw [applyLoop]
        simp only [hr, hm]
        exact ih _ htl
      | some ms =>
        have hlen : r.groupNamesDecorated.length < ms.length := by
          rw [h r (List.mem_cons_self _ _) re hr, re.submatch_length T ms hm]
          omega
        exact ⟨_, _, applyLoop_match T r rs a re ms hr hm hlen⟩

/-! ## The rule engine: compiled rule sets -/

/-- C7: `Apply` is total on compiled rule sets. For every list of definitions `ParseRules`
accepts and every topic, `Apply` returns a decision and does not panic; every pattern rule
has as many placeholders as its matcher has capture groups, so each index `ix+1` read from
the submatches of a match is in range. -/
theorem Apply_total_on_compiled (compile : String → Except GoError Regexp)
    (texts : List String) (rs : Rules) (h : ParseRules compile texts = .ok rs) :
    (∀ topic, ∃ act rep, Rules.Apply rs topic = some (act, rep)) ∧
    (∀ r ∈ rs, ∀ re, r.regex = some re →
      r.groupNamesDecorated.length = re.NumSubexp ∧
      ∀ topic ms, re.FindStringSubmatch topic = some ms →
        ∀ ix, ix < r.groupNamesDecorated.length → ix + 1 < ms.length) := by
  have hwf : ∀ r ∈ rs, ∀ re, r.regex = some re →
      r.groupNamesDecorated.length = re.NumSubexp := by
    intro r hr re hre
    obtain ⟨text, -, hone⟩ := ParseRules_mem compile texts rs h r hr
    rw [parseOne_names compile text r hone re hre, List.length_map, List.length_drop,
      re.names_length]
    omega
  refine ⟨fun topic => applyLoop_total topic rs ActionSend hwf, fun r hr re hre => ?_⟩
  refine ⟨hwf r hr re hre, fun topic ms hm ix hix => ?_⟩
  rw [re.submatch_length topic ms hm, ← hwf r hr re hre]
  omega

/-- C7 at the definitions `ignore` and `(a)(?P<x>b)->send`. -/
theorem Apply_total_on_compiled_witness :
    failure (ParseRules regexp.Compile ["ignore", "(a)(?P<x>b)->send"]) = none ∧
    (∀ topic, ∃ act rep,
      Rules.Apply (rulesOf (ParseRules regexp.Compile ["ignore", "(a)(?P<x>b)->send"])) topic =
        some (act, rep)) :=
  ⟨by decide,
    (Apply_total_on_compiled regexp.Compile ["ignore", "(a)(?P<x>b)->send"] _
      (ok_rulesOf _ (by decide))).1⟩

/-- C9: action parsing knows two keywords. `parseAction t` succeeds exactly when `t` is
`ignore` (giving `Ignore`) or `send` (giving `Send`), and fails on every other text with the
unknown-action error naming `t`; so `ParseRules` fails, with no rule set, on every list
holding a definition without `->` that is not a keyword, or a definition whose text after
its first `->` is not a keyword. -/
theorem parseAction_two_keywords :
    (∀ t : String,
      (t = "ignore" → parseAction t = .ok ActionIgnore) ∧
      (t = "send" → parseAction t = .ok ActionSend) ∧
      (t ≠ "ignore" → t ≠ "send" →
        parseAction t = .error (.msg ("unknown action: " ++ t))) ∧
      ((∃ a, parseAction t = .ok a) ↔ (t = "ignore" ∨ t = "send"))) ∧
    (∀ (compile : String → Except GoError Regexp) (texts : List String) (text : String),
      text ∈ texts → ¬ "->".toList <:+: text.toList → text ≠ "ignore" → text ≠ "send" →
      ∃ err, ParseRules compile texts = .error err) ∧
    (∀ (compile : String → Except GoError Regexp) (texts : List String) (pat act : String),
      pat ++ "->" ++ act ∈ texts → ¬ "->".toList <:+: pat.toList →
      act ≠ "ignore" → act ≠ "send" →
      ∃ err, ParseRules compile texts = .error err) := by
  refine ⟨fun t => ⟨?_, ?_, parseAction_unknown t, ?_⟩, ?_, ?_⟩
  · rintro rfl; simp [parseAction, ActionIgnore]
  · rintro rfl; simp [parseAction, ActionIgnore, ActionSend]
  · constructor
    · rintro ⟨a, ha⟩
      by_contra hne
      rw [not_or] at hne
      rw [parseAction_unknown t hne.1 hne.2] at ha
      cases ha
    · rintro (rfl | rfl)
      · exact ⟨ActionIgnore, by simp [parseAction, ActionIgnore]⟩
      · exact ⟨ActionSend, by simp [parseAction, ActionIgnore, ActionSend]⟩
  · intro compile texts text hmem hno h1 h2
    refine ParseRules_fails_of_bad compile texts text hmem (fun r hr => ?_)
    rw [parseOne_no_arrow compile text hno h1 h2] at hr
    cases hr
  · intro compile texts pat act hmem hno h1 h2
    exact ParseRules_fails_of_bad compile texts _ hmem (parseOne_arrow_bad compile pat act hno h1 h2)

/-- C9 at the lists `send, purge` and `ignore, a->drop`. -/
theorem parseAction_two_keywords_witness :
    (∃ err, ParseRules regexp.Compile ["send", "purge"] = .error err) ∧
    (∃ err, ParseRules regexp.Compile ["ignore", "a" ++ "->" ++ "drop"] = .error err) :=
  ⟨parseAction_two_keywords.2.1 regexp.Compile ["send", "purge"] "purge" (by decide)
      (by decide) (by decide) (by decide),
    parseAction_two_keywords.2.2 regexp.Compile ["ignore", "a" ++ "->" ++ "drop"] "a" "drop"
      (by simp) (by decide) (by decide) (by decide)⟩

theorem pairUp_getElem :
    ∀ (names cs : List String) (ix : Nat), ix < names.length → ix < cs.length →
      (pairUp names cs)[2 * ix]? = names[ix]? ∧ (pairUp names cs)[2 * ix + 1]? = cs[ix]? := by
  intro names
  induction names with
  | nil => intro cs ix h; simp at h
  | cons name names ih =>
    intro cs ix h1 h2
    cases cs with
    | nil => simp at h2
    | cons c cs =>
      cases ix with
      | zero => simp [pairUp]
      | succ k =>
        simp only [List.length_cons] at h1 h2
        have hk := ih cs k (by omega) (by omega)
        have e1 : 2 * (k + 1) = (2 * k) + 1 + 1 := by omega
        rw [e1]
        simp only [pairUp, List.getElem?_cons_succ]
        exact hk

/-- C10, as the code has it: every capture group of the pattern, named or not, gives a
placeholder. In a compiled rule set `pre ++ r :: post` the placeholders of a pattern rule
`r` are the names of the capture groups of its matcher in order (`SubexpNames` without its
entry 0, the empty name for an unnamed group), each between braces; and when no pattern
rule of `pre` matches the topic and `r` does, `Apply` returns `r`'s action with the
placeholder of each group followed by the text that group captured. -/
theorem placeholders_are_capture_groups (compile : String → Except GoError Regexp)
    (texts : List String) (pre post : Rules) (r : rule) (re : Regexp)
    (h : ParseRules compile texts = .ok (pre ++ r :: post)) (hre : r.regex = some re) :
    r.groupNamesDecorated =
      (re.SubexpNames.drop 1).map (fun name => "\x7b" ++ name ++ "\x7d") ∧
    r.groupNamesDecorated.length = re.NumSubexp ∧
    ∀ (T : String) (ms : List String), re.FindStringSubmatch T = some ms →
      (∀ q ∈ pre, ∀ qe, q.regex = some qe → qe.FindStringSubmatch T = none) →
      Rules.Apply (pre ++ r :: post) T =
          some (r.action, some ⟨pairUp r.groupNamesDecorated (ms.drop 1)⟩) ∧
        ∀ ix, ix < re.NumSubexp →
          (pairUp r.groupNamesDecorated (ms.drop 1))[2 * ix]? = r.groupNamesDecorated[ix]? ∧
          (pairUp r.groupNamesDecorated (ms.drop 1))[2 * ix + 1]? = ms[ix + 1]? := by
  have hmem : r ∈ pre ++ r :: post := by simp
  obtain ⟨text, -, hone⟩ := ParseRules_mem compile texts _ h r hmem
  have hnames := parseOne_names compile text r hone re hre
  have hlen : r.groupNamesDecorated.length = re.NumSubexp := by
    rw [hnames, List.length_map, List.length_drop, re.names_length]
    omega
  refine ⟨hnames, hlen, fun T ms hm hpre => ⟨?_, fun ix hix => ?_⟩⟩
  · have hms := re.submatch_length T ms hm
    unfold Rules.Apply
    rw [applyLoop_skip T _ pre ActionSend hpre]
    exact applyLoop_match T r post _ re ms hre hm (by omega)
  · have hms := re.submatch_length T ms hm
    have hp := pairUp_getElem r.groupNamesDecorated (ms.drop 1) ix (by omega)
      (by rw [List.length_drop]; omega)
    rw [List.getElem?_drop, Nat.add_comm 1 ix] at hp
    exact hp

/-- C10 at the definition `(a)(?P<x>b)->send` and the topic `ab`. -/
theorem placeholders_are_capture_groups_witness :
    ParseRules regexp.Compile ["(a)(?P<x>b)->send"] = .ok ([] ++ abRule :: []) ∧
    abRule.groupNamesDecorated = ["\x7b\x7d", "\x7bx\x7d"] ∧
    Rules.Apply ([] ++ abRule :: []) "ab" =
      some (ActionSend, some ⟨["\x7b\x7d", "a", "\x7bx\x7d", "b"]⟩) :=
  have h : ParseRules regexp.Compile ["(a)(?P<x>b)->send"] = .ok ([] ++ abRule :: []) := rfl
  have hm : abRegexp.FindStringSubmatch "ab" = some ["ab", "a", "b"] := by decide
  ⟨h, rfl,
    ((placeholders_are_capture_groups regexp.Compile _ [] [] abRule abRegexp h rfl).2.2
      "ab" _ hm (by simp)).1⟩

/-- C10 as stated fails: the unnamed group of `(a)(?P<x>b)` contributes the placeholder
written with empty braces, so the placeholders are not the named groups alone. -/
theorem unnamed_group_gives_placeholder :
    failure (ParseRules regexp.Compile ["(a)(?P<x>b)->send"]) = none ∧
    (rulesOf (ParseRules regexp.Compile ["(a)(?P<x>b)->send"])).map
        (fun r => r.groupNamesDecorated) = [["\x7b\x7d", "\x7bx\x7d"]] ∧
    (rulesOf (ParseRules regexp.Compile ["(a)(?P<x>b)->send"])).map
        (fun r => r.groupNamesDecorated) ≠ [["\x7bx\x7d"]] := by
  decide

/-- C3 as stated fails: with blanks around `->` the text after the separator is ` send`,
which is no action, and `ParseRules` rejects the definition. -/
theorem spaced_definition_rejected :
    failure (ParseRules regexp.Compile ["sensors/(?P<id>[0-9]+)/temp -> send"]) =
      some (.wrap "parsing action" (.msg "unknown action:  send")) := by
  decide

/-- C3, as the code has it: written without blanks around `->`, the definition
`sensors/(?P<id>[0-9]+)/temp->send` compiles; on its rule set `sensors/42/temp` gives `Send`
with the placeholder of `id` paired with `42`, and `sensors/abc/temp` does not match and
gives the `Send` default with a nil replacer. Written with the blanks it is rejected. -/
theorem sensors_rule_round_trip :
    failure (ParseRules regexp.Compile ["sensors/(?P<id>[0-9]+)/temp->send"]) = none ∧
    Rules.Apply (rulesOf (ParseRules regexp.Compile ["sensors/(?P<id>[0-9]+)/temp->send"]))
        "sensors/42/temp" = some (ActionSend, some ⟨["\x7bid\x7d", "42"]⟩) ∧
    Rules.Apply (rulesOf (ParseRules regexp.Compile ["sensors/(?P<id>[0-9]+)/temp->send"]))
        "sensors/abc/temp" = some (ActionSend, none) ∧
    (∀ compile : String → Except GoError Regexp,
      ∃ err, ParseRules compile ["sensors/(?P<id>[0-9]+)/temp -> send"] = .error err) := by
  refine ⟨by decide, by decide, by decide, fun compile => ?_⟩
  have htext : "sensors/(?P<id>[0-9]+)/temp -> send" =
      "sensors/(?P<id>[0-9]+)/temp " ++ "->" ++ " send" := by decide
  rw [htext]
  exact ParseRules_fails_of_bad compile _ _ (List.mem_singleton.mpr rfl)
    (parseOne_arrow_bad compile _ _ (by decide) (by decide) (by decide))

/-- C4 fails on the code: the rule of `a|b->send` is compiled from `^a|b$`, where the
anchors bind to one branch each. After the default `ignore`, the topics `ax` and `xb` are
matched by that rule and sent, although `a|b` matches neither as a whole. -/
theorem alternation_not_anchored :
    failure (ParseRules regexp.Compile ["ignore", "a|b->send"]) = none ∧
    Rules.Apply (rulesOf (ParseRules regexp.Compile ["ignore", "a|b->send"])) "ax" =
      some (ActionSend, some ⟨[]⟩) ∧
    wholeMatch "a|b" "ax" = some false ∧
    Rules.Apply (rulesOf (ParseRules regexp.Compile ["ignore", "a|b->send"])) "xb" =
      some (ActionSend, some ⟨[]⟩) ∧
    wholeMatch "a|b" "xb" = some false := by
  decide

/-- C8 as stated fails: `(unbalanced` holds no `->`, so it is read as an action and the
failure is the unknown-action error. -/
theorem unbalanced_is_unknown_action :
    failure (ParseRules regexp.Compile ["(unbalanced"]) =
      some (.wrap "parsing action" (.msg "unknown action: (unbalanced")) := by
  decide

/-- C8, as the code has it: compiling the single definition `(unbalanced` fails with the
unknown-action error, whatever the pattern compiler; the invalid-pattern error is what the
pattern rule `(unbalanced->send` fails with. -/
theorem unbalanced_errors :
    (∀ compile : String → Except GoError Regexp,
      ParseRules compile ["(unbalanced"] =
        .error (.wrap "parsing action" (.msg "unknown action: (unbalanced"))) ∧
    ParseRules regexp.Compile ["(unbalanced->send"] =
      .error (.wrap "failed to compile regex" (.regexp .ErrMissingParen)) := by
  refine ⟨fun compile => ?_, rfl⟩
  unfold ParseRules
  rw [parseLoop_cons, parseOne_no_arrow compile "(unbalanced" (by decide) (by decide)
    (by decide)]
  rfl

/-! ## The per-message handler -/

theorem handleMessage_ok_iff (env : Env) (ctx : Option GoError) (pr : Publish)
    (endpoint : String) :
    (∃ res, (handleMessage env ctx pr endpoint).2 = .ok res) ↔
      ∃ u code, env.parseURL endpoint = .ok u ∧
        env.Do ctx ⟨"POST", u, [("Content-Type", "application/json")], pr.Payload⟩ =
          .ok code := by
  unfold handleMessage NewRequestWithContext
  cases hu : env.parseURL endpoint with
  | error e => simp
  | ok u =>
    simp only
    cases hd : env.Do ctx ⟨"POST", u, [("Content-Type", "application/json")], pr.Payload⟩ with
    | error e => simp [hd]
    | ok code => simp [hd]

theorem handleMessage_events (env : Env) (ctx : Option GoError) (pr : Publish)
    (endpoint : String) :
    (handleMessage env ctx pr endpoint).1.filter Event.isAck = [] ∧
    (handleMessage env ctx pr endpoint).1.filter Event.isCancel = [] := by
  unfold handleMessage NewRequestWithContext
  cases hu : env.parseURL endpoint with
  | error e => simp
  | ok u =>
    simp only
    cases hd : env.Do ctx ⟨"POST", u, [("Content-Type", "application/json")], pr.Payload⟩ <;>
      simp [Event.isAck, Event.isCancel]

/-- C6: the handler acknowledges a message exactly when its forward succeeded. When
`handleMessage` returns without error (the request was built and a response obtained,
whatever its status code) the handler calls `Ack` on the message exactly once, never
`cancel`, and leaves the pipeline context as it was; when it fails the handler calls no
`Ack`, calls `cancel` once with the failure, and the context has a recorded cause
afterwards (this failure, unless one was recorded before). -/
theorem ack_exactly_when_forwarded (env : Env) (endpoint : String) (ctx : Option GoError)
    (pr : Publish) :
    (∀ res, (handleMessage env ctx pr endpoint).2 = .ok res →
      (OnPublishReceived env endpoint ctx pr).events.filter Event.isAck = [.ack pr] ∧
      (OnPublishReceived env endpoint ctx pr).events.filter Event.isCancel = [] ∧
      (OnPublishReceived env endpoint ctx pr).ctx = ctx) ∧
    (∀ err, (handleMessage env ctx pr endpoint).2 = .error err →
      (OnPublishReceived env endpoint ctx pr).events.filter Event.isAck = [] ∧
      (OnPublishReceived env endpoint ctx pr).events.filter Event.isCancel =
        [.cancel (.wrap ("failed to handle message on " ++ pr.Topic) err)] ∧
      (OnPublishReceived env endpoint ctx pr).ctx ≠ none ∧
      (ctx = none → (OnPublishReceived env endpoint ctx pr).ctx =
        some (.wrap ("failed to handle message on " ++ pr.Topic) err))) ∧
    ((∃ res, (handleMessage env ctx pr endpoint).2 = .ok res) ↔
      ∃ u code, env.parseURL endpoint = .ok u ∧
        env.Do ctx ⟨"POST", u, [("Content-Type", "application/json")], pr.Payload⟩ =
          .ok code) := by
  have hev := handleMessage_events env ctx pr endpoint
  refine ⟨fun res hres => ?_, fun err herr => ?_, handleMessage_ok_iff env ctx pr endpoint⟩
  · unfold OnPublishReceived
    rcases hh : handleMessage env ctx pr endpoint with ⟨evs, result⟩
    rw [hh] at hres hev
    simp only at hres hev
    subst hres
    cases env.Ack pr <;>
      simp [List.filter_append, hev.1, hev.2, Event.isAck, Event.isCancel]
  · unfold OnPublishReceived
    rcases hh : handleMessage env ctx pr endpoint with ⟨evs, result⟩
    rw [hh] at herr hev
    simp only at herr hev
    subst herr
    refine ⟨?_, ?_, ?_, ?_⟩
    · simp [List.filter_append, hev.1, Event.isAck]
    · simp [List.filter_append, hev.2, Event.isCancel]
    · cases ctx <;> simp [cancel]
    · rintro rfl; rfl

/-- C6 at a sink answering status 500 (a success: one `Ack`), at an unreachable sink (a
failure: no `Ack`, the cause recorded) and at an endpoint that is no URL (a failure to build
the request: no `Ack`). -/
theorem ack_exactly_when_forwarded_witness :
    (OnPublishReceived sampleEnv "http://sink" none ⟨"t", [1]⟩).events.filter Event.isAck =
      [.ack ⟨"t", [1]⟩] ∧
    (OnPublishReceived sampleEnv "http://sink" none ⟨"t", []⟩).events.filter Event.isAck = [] ∧
    (OnPublishReceived sampleEnv "http://sink" none ⟨"t", []⟩).ctx =
      some (.wrap ("failed to handle message on " ++ "t") (.msg "connection refused")) ∧
    (OnPublishReceived badUrlEnv "sink" none ⟨"t", [1]⟩).events.filter Event.isAck = [] :=
  ⟨((ack_exactly_when_forwarded sampleEnv "http://sink" none ⟨"t", [1]⟩).1 _ rfl).1,
    ((ack_exactly_when_forwarded sampleEnv "http://sink" none ⟨"t", []⟩).2.1 _ rfl).1,
    ((ack_exactly_when_forwarded sampleEnv "http://sink" none ⟨"t", []⟩).2.1 _ rfl).2.2.2 rfl,
    ((ack_exactly_when_forwarded badUrlEnv "sink" none ⟨"t", [1]⟩).2.1 _ rfl).1⟩

/-- C5 as stated fails: the rule set of the one definition `ignore` routes the topic to
`Ignore`, and the handler still performs the HTTP forward of the message. -/
theorem ignored_topic_is_forwarded :
    failure (ParseRules regexp.Compile ["ignore"]) = none ∧
    Rules.Apply (rulesOf (ParseRules regexp.Compile ["ignore"])) "sensors/1/temp" =
      some (ActionIgnore, none) ∧
    Event.httpDo ⟨"POST", "http://sink", [("Content-Type", "application/json")], [1]⟩ ∈
      (OnPublishReceived sampleEnv "http://sink" none ⟨"sensors/1/temp", [1]⟩).events := by
  decide

/-- C5, as the code has it: the handler does not consult the rule engine. A message whose
topic a rule set routes to `Ignore` is handled like every other one: when the request can
be built, the handler performs exactly one HTTP forward, the `POST` of the payload to the
endpoint, and it acknowledges the message exactly when that forward obtained a response. -/
theorem handler_ignores_the_rules (env : Env) (endpoint : String) (ctx : Option GoError)
    (pr : Publish) (rs : Rules) (u : String)
    (_hroute : Rules.Apply rs pr.Topic = some (ActionIgnore, none))
    (hurl : env.parseURL endpoint = .ok u) :
    (OnPublishReceived env endpoint ctx pr).events.filter Event.isHttpDo =
      [.httpDo ⟨"POST", u, [("Content-Type", "application/json")], pr.Payload⟩] ∧
    (Event.ack pr ∈ (OnPublishReceived env endpoint ctx pr).events ↔
      ∃ code, env.Do ctx ⟨"POST", u, [("Content-Type", "application/json")], pr.Payload⟩ =
        .ok code) := by
  unfold OnPublishReceived handleMessage NewRequestWithContext
  simp only [hurl]
  cases hd : env.Do ctx ⟨"POST", u, [("Content-Type", "application/json")], pr.Payload⟩ with
  | error e => simp [Event.isHttpDo]
  | ok code => cases env.Ack pr <;> simp [Event.isHttpDo]

/-- C5 at the rule set holding the default `ignore` alone and a sink answering 500. -/
theorem handler_ignores_the_rules_witness :
    Rules.Apply [ignoreRule] "sensors/1/temp" = some (ActionIgnore, none) ∧
    (OnPublishReceived sampleEnv "http://sink" none ⟨"sensors/1/temp", [1]⟩).events.filter
        Event.isHttpDo =
      [.httpDo ⟨"POST", "http://sink", [("Content-Type", "application/json")], [1]⟩] :=
  ⟨rfl, (handler_ignores_the_rules sampleEnv "http://sink" none ⟨"sensors/1/temp", [1]⟩
    [ignoreRule] "http://sink" rfl rfl).1⟩

end Mqtohttp
